import Mathlib

/-!
Verification of the futures price aggregation core: a shallow embedding of
the price book (`price_manager.py`) and of the venue adapters (Deribit,
CoinDCX, Phemex, and the shared `base_exchange.py` formatting helpers),
together with proofs and refutations of the stated properties.

Strings are modelled as lists of characters so that the key-encoding
`f"{symbol}-{exchange}"` and its recovery by `key.split('-', 1)` can be
reasoned about directly.  Python floats are modelled as rationals, Python
dicts as insertion-ordered association lists.
-/

/-- Strings, modelled as character lists. -/
abbrev Str := List Char

/-- Dict lookup: first binding of the key wins (Python dicts have unique
keys; on such lists this is exactly `d[k]`). -/
def alookup {α : Type} : List (Str × α) → Str → Option α
  | [], _ => none
  | (k', v) :: rest, k => if k' = k then some v else alookup rest k

/-- Dict write `d[k] = v`: replaces the first binding in place (preserving
insertion order, as Python dicts do) or appends a new binding. -/
def aset {α : Type} : List (Str × α) → Str → α → List (Str × α)
  | [], k, v => [(k, v)]
  | (k', v') :: rest, k, v =>
    if k' = k then (k, v) :: rest else (k', v') :: aset rest k v

/-- Dict deletion `del d[k]` (total: deleting an absent key is a no-op). -/
def aerase {α : Type} (l : List (Str × α)) (k : Str) : List (Str × α) :=
  l.filter fun kv => decide (kv.1 ≠ k)

/-- Python `str.upper()` on our character-list strings. -/
def upperStr (s : Str) : Str := s.map Char.toUpper

/-- The string contains no dash character. -/
abbrev NoDash (s : Str) : Prop := '-' ∉ s

/-- The `f"{symbol}-{exchange}"` key used by `last_updated`. -/
def skey (s e : Str) : Str := s ++ '-' :: e

/-- Python `key.split('-', 1)`: the part before the first dash and the part
after it (the whole string and `""` when no dash occurs). -/
def splitDash : Str → Str × Str
  | [] => ([], [])
  | c :: cs =>
    if c = '-' then ([], cs)
    else ((splitDash cs).1.cons c, (splitDash cs).2)

/-- Python `str.replace(pat, rep)`: leftmost non-overlapping replacement of
every occurrence (identity for the empty pattern, which the sources never
use). -/
def strReplace (pat rep : Str) : Str → Str
  | [] => []
  | c :: cs =>
    if h : pat ≠ [] ∧ pat.isPrefixOf (c :: cs) then
      rep ++ strReplace pat rep ((c :: cs).drop pat.length)
    else
      c :: strReplace pat rep cs
termination_by s => s.length
decreasing_by
  · have hp : 0 < pat.length := List.length_pos.mpr h.1
    simp only [List.length_drop, List.length_cons]
    omega
  · simp only [List.length_cons]
    omega

/-- A stored quote: the value of `self.prices[symbol][exchange]` in
`PriceManager.update_price`. -/
structure Quote where
  price : ℚ
  bid : Option ℚ
  ask : Option ℚ
  timestamp : ℤ
deriving DecidableEq, Repr

/-- A price-update record as produced by `BaseExchange.format_price_data`
and consumed by `PriceManager.update_price`. -/
structure PriceData where
  exchange : Str
  symbol : Str
  price : ℚ
  bid : Option ℚ
  ask : Option ℚ
  timestamp : ℤ
deriving DecidableEq, Repr

/-- The mutable state of `PriceManager`: `prices`, `last_updated` (keyed by
`f"{symbol}-{exchange}"`, values are local receive times in seconds) and
`last_arbitrage_alert` (symbol to time of last alert). -/
structure PMState where
  prices : List (Str × List (Str × Quote))
  lastUpdated : List (Str × ℚ)
  lastArbAlert : List (Str × ℚ)
deriving DecidableEq, Repr

/-- The freshly constructed `PriceManager()`. -/
def emptyPM : PMState := ⟨[], [], []⟩

/-- The `arbitrage_alert_cooldown` constant: 300.0 seconds. -/
def arbitrageAlertCooldown : ℚ := 300

/-- One candidate in the best-bid/best-ask scan of
`PriceManager.get_best_prices`. -/
structure BestEntry where
  price : ℚ
  exchange : Str
  timestamp : ℤ
deriving DecidableEq, Repr

/-- The record returned by `PriceManager.get_best_prices`. -/
structure BestPrices where
  symbol : Str
  best_bid : Option BestEntry
  best_ask : Option BestEntry
  spread : Option ℚ
  spread_percentage : Option ℚ
deriving DecidableEq, Repr

/-- The record returned by `PriceManager.get_spread`. -/
structure SpreadInfo where
  symbol : Str
  exchange1 : Str
  exchange2 : Str
  spread : ℚ
  spread_percentage : ℚ
  higher : Str
  lower : Str
  higher_price : ℚ
  lower_price : ℚ
  timestamp : ℤ
deriving DecidableEq, Repr

/-- One arbitrage opportunity as built in
`PriceManager.check_arbitrage_opportunities`. -/
structure ArbOpp where
  info : SpreadInfo
  profitable : Bool
  buy_exchange : Str
  sell_exchange : Str
  potential_profit : ℚ
deriving DecidableEq, Repr

/-- `PriceManager.get_prices_by_symbol`: upper-cases the symbol and returns
the per-exchange map, or `None` when the symbol is absent. -/
def getPricesBySymbol (st : PMState) (s : Str) : Option (List (Str × Quote)) :=
  alookup st.prices (upperStr s)

/-- `PriceManager.get_spread`. -/
def getSpread (st : PMState) (s e1 e2 : Str) : Option SpreadInfo :=
  match getPricesBySymbol st s with
  | none => none
  | some inner =>
    if inner = [] then none
    else
      match alookup inner e1, alookup inner e2 with
      | some q1, some q2 =>
        let p1 := q1.price
        let p2 := q2.price
        let sp := |p1 - p2|
        let mn := min p1 p2
        some ⟨s, e1, e2, sp, if mn > 0 then sp / mn * 100 else 0,
          if p1 > p2 then e1 else e2, if p1 < p2 then e1 else e2,
          max p1 p2, mn, max q1.timestamp q2.timestamp⟩
      | _, _ => none

/-- One step of the best-entry scan in `PriceManager.get_best_prices`: the
candidate replaces the current best exactly when `better` holds of its
price against the current best price. -/
def bestFoldStep (better : ℚ → ℚ → Bool) (proj : Quote → Option ℚ)
    (acc : Option BestEntry) (x : Str × Quote) : Option BestEntry :=
  match proj x.2 with
  | none => acc
  | some v =>
    match acc with
    | none => some ⟨v, x.1, x.2.timestamp⟩
    | some cur => if better v cur.price then some ⟨v, x.1, x.2.timestamp⟩ else acc

/-- The accumulator step of the scan on the projected entries alone:
keep the current best unless the candidate is strictly better. -/
def chooseStep (better : ℚ → ℚ → Bool) (acc : Option BestEntry)
    (x : BestEntry) : Option BestEntry :=
  match acc with
  | none => some x
  | some cur => if better x.price cur.price then some x else acc

/-- The candidate entries (price, exchange, venue timestamp) of a
per-exchange map under a projection, in iteration (insertion) order. -/
def entriesOf (proj : Quote → Option ℚ) (inner : List (Str × Quote)) :
    List BestEntry :=
  inner.filterMap fun x => (proj x.2).map fun v => ⟨v, x.1, x.2.timestamp⟩

/-- Strict greater-than on rationals as a boolean. -/
def gtB (a b : ℚ) : Bool := decide (a > b)

/-- Strict less-than on rationals as a boolean. -/
def ltB (a b : ℚ) : Bool := decide (a < b)

/-- `PriceManager.get_best_prices`. -/
def getBestPrices (st : PMState) (s : Str) : Option BestPrices :=
  match getPricesBySymbol st s with
  | none => none
  | some inner =>
    if inner = [] then none
    else
      let bb := inner.foldl (bestFoldStep gtB Quote.bid) none
      let ba := inner.foldl (bestFoldStep ltB Quote.ask) none
      match bb, ba with
      | some b, some a =>
        some ⟨s, bb, ba, some (a.price - b.price),
          some (if b.price > 0 then (a.price - b.price) / b.price * 100 else 0)⟩
      | _, _ => some ⟨s, bb, ba, none, none⟩

/-- All ordered pairs `(l[i], l[j])` with `i < j`, in the nested-loop order
of `check_arbitrage_opportunities`. -/
def allPairs {α : Type} : List α → List (α × α)
  | [] => []
  | x :: xs => xs.map (fun y => (x, y)) ++ allPairs xs

/-- The opportunity record built from a surviving spread. -/
def mkOpp (sp : SpreadInfo) : ArbOpp :=
  ⟨sp, true, sp.lower, sp.higher, sp.spread_percentage⟩

/-- Insert an opportunity into a list sorted by descending
`potential_profit`. -/
def insertByProfit (x : ArbOpp) : List ArbOpp → List ArbOpp
  | [] => [x]
  | y :: ys =>
    if x.potential_profit ≥ y.potential_profit then x :: y :: ys
    else y :: insertByProfit x ys

/-- Python `sorted(key=potential_profit, reverse=True)`. -/
def sortByProfit : List ArbOpp → List ArbOpp
  | [] => []
  | x :: xs => insertByProfit x (sortByProfit xs)

/-- `PriceManager.check_arbitrage_opportunities`. -/
def checkArbitrage (st : PMState) (s : Str) (minPct : ℚ) : List ArbOpp :=
  match getPricesBySymbol st s with
  | none => []
  | some inner =>
    if inner.length < 2 then []
    else
      sortByProfit <|
        (allPairs (inner.map (·.1))).foldr
          (fun pr acc =>
            match getSpread st s pr.1 pr.2 with
            | some sp =>
              if sp.spread_percentage ≥ minPct then mkOpp sp :: acc else acc
            | none => acc)
          []

/-- `PriceManager._should_send_arbitrage_alert`. -/
def shouldSendAlert (st : PMState) (s : Str) (now : ℚ) : Bool :=
  match alookup st.lastArbAlert s with
  | none => true
  | some t => decide (now - t ≥ arbitrageAlertCooldown)

/-- The outcome of one `update_price` call: the new manager state and
whether an `arbitrage_opportunity` event was emitted. -/
structure UpdResult where
  state : PMState
  alerted : Bool
deriving DecidableEq, Repr

/-- `PriceManager.update_price` at local wall-clock time `now` (seconds):
stores the quote, stamps `last_updated`, then emits an arbitrage alert iff
opportunities exist and the cooldown check passes, recording the alert
time. -/
def updatePrice (st : PMState) (pd : PriceData) (now : ℚ) : UpdResult :=
  let inner := (alookup st.prices pd.symbol).getD []
  let q : Quote := ⟨pd.price, pd.bid, pd.ask, pd.timestamp⟩
  let prices' := aset st.prices pd.symbol (aset inner pd.exchange q)
  let lu' := aset st.lastUpdated (skey pd.symbol pd.exchange) now
  let st1 : PMState := ⟨prices', lu', st.lastArbAlert⟩
  let opps := checkArbitrage st1 pd.symbol (1 / 10)
  if opps ≠ [] ∧ shouldSendAlert st1 pd.symbol now = true then
    ⟨⟨prices', lu', aset st.lastArbAlert pd.symbol now⟩, true⟩
  else
    ⟨st1, false⟩

/-- `PriceManager.is_stale` evaluated at wall-clock time `now`. -/
def isStale (st : PMState) (now : ℚ) (s e : Str) (maxAge : ℚ) : Bool :=
  match alookup st.lastUpdated (skey s e) with
  | none => true
  | some t => decide (now - t > maxAge)

/-- Accumulator of the per-key deletion loop of
`PriceManager.remove_stale_data`. -/
structure ReapAcc where
  prices : List (Str × List (Str × Quote))
  lastUpdated : List (Str × ℚ)
  removed : Nat
  symsRemoved : List Str
deriving DecidableEq, Repr

/-- One iteration of the stale-key loop: recover `(symbol, exchange)` by
splitting the key at its first dash, delete the quote entry when present
(and the now-empty symbol map), then delete the timestamp entry. -/
def reapStep (acc : ReapAcc) (k : Str) : ReapAcc :=
  let sym := (splitDash k).1
  let ex := (splitDash k).2
  let acc1 :=
    match alookup acc.prices sym with
    | none => acc
    | some inner =>
      if (alookup inner ex).isSome then
        let inner2 := aerase inner ex
        if inner2 = [] then
          ⟨aerase acc.prices sym, acc.lastUpdated, acc.removed + 1,
            sym :: acc.symsRemoved⟩
        else
          ⟨aset acc.prices sym inner2, acc.lastUpdated, acc.removed + 1,
            acc.symsRemoved⟩
      else acc
  ⟨acc1.prices, aerase acc1.lastUpdated k, acc1.removed, acc1.symsRemoved⟩

/-- `PriceManager.remove_stale_data` evaluated at wall-clock time `now`:
returns the new state and the number of deleted quote entries. -/
def removeStaleData (st : PMState) (now maxAge : ℚ) : PMState × Nat :=
  let staleKeys :=
    (st.lastUpdated.filter fun kv => decide (now - kv.2 > maxAge)).map (·.1)
  let acc := staleKeys.foldl reapStep ⟨st.prices, st.lastUpdated, 0, []⟩
  let arb1 := acc.symsRemoved.foldl (fun m s => aerase m s) st.lastArbAlert
  let staleAlerts :=
    (arb1.filter fun kv => decide (now - kv.2 > 3600)).map (·.1)
  let arb2 := staleAlerts.foldl (fun m s => aerase m s) arb1
  (⟨acc.prices, acc.lastUpdated, arb2⟩, acc.removed)

/-- An observable book operation with its wall-clock instant. -/
inductive PMOp where
  | update (pd : PriceData) (now : ℚ)
  | reap (now maxAge : ℚ)
deriving Repr

/-- Apply one operation to the manager state. -/
def applyOp (st : PMState) : PMOp → PMState
  | .update pd now => (updatePrice st pd now).state
  | .reap now maxAge => (removeStaleData st now maxAge).1

/-- Run a sequence of operations from the freshly constructed manager. -/
def runOps (ops : List PMOp) : PMState := ops.foldl applyOp emptyPM

/-- The `arbitrage_opportunity` events (time and symbol, in emission order)
produced by a sequence of `update_price` calls. -/
def alertEvents (st : PMState) : List (PriceData × ℚ) → List (ℚ × Str)
  | [] => []
  | (pd, t) :: rest =>
    let r := updatePrice st pd t
    if r.alerted then (t, pd.symbol) :: alertEvents r.state rest
    else alertEvents r.state rest

/-- `BaseExchange.format_price_data`, parameterized by the venue name and
its (possibly overridden) `normalize_symbol`; `nowMs` stands for
`int(time.time() * 1000)`, substituted when the venue timestamp is falsy. -/
def formatPriceData (name : Str) (normalize : Str → Str) (symbol : Str)
    (price : ℚ) (bid ask : Option ℚ) (ts : ℤ) (nowMs : ℤ) : PriceData :=
  ⟨name, normalize symbol, price, bid, ask, if ts = 0 then nowMs else ts⟩

/-- Deribit's `symbol_mappings` table in `_convert_to_deribit_symbol`. -/
def deribitMappings : List (Str × Str) :=
  [("BTCUSDT".toList, "BTC-PERPETUAL".toList),
   ("ETHUSDT".toList, "ETH-PERPETUAL".toList),
   ("SOLUSDT".toList, "SOL-PERPETUAL".toList),
   ("ADAUSDT".toList, "ADA-PERPETUAL".toList),
   ("DOTUSDT".toList, "DOT-PERPETUAL".toList),
   ("LINKUSDT".toList, "LINK-PERPETUAL".toList),
   ("LTCUSDT".toList, "LTC-PERPETUAL".toList),
   ("XRPUSDT".toList, "XRP-PERPETUAL".toList),
   ("AVAXUSDT".toList, "AVAX-PERPETUAL".toList),
   ("MATICUSDT".toList, "MATIC-PERPETUAL".toList)]

/-- Deribit's `reverse_mappings` table in `_convert_from_deribit_symbol`. -/
def deribitReverseMappings : List (Str × Str) :=
  deribitMappings.map fun p => (p.2, p.1)

/-- `DeribitExchange._convert_to_deribit_symbol`: table hit, else
`symbol.replace('USDT', '') + '-PERPETUAL'`. -/
def deribitConvertTo (s : Str) : Str :=
  match alookup deribitMappings s with
  | some d => d
  | none => strReplace "USDT".toList [] s ++ "-PERPETUAL".toList

/-- `DeribitExchange._convert_from_deribit_symbol`: table hit, else
`deribit_symbol.split('-')[0] + 'USDT'`. -/
def deribitConvertFrom (ds : Str) : Str :=
  match alookup deribitReverseMappings ds with
  | some s => s
  | none => (splitDash ds).1 ++ "USDT".toList

/-- `DeribitExchange.normalize_symbol` delegates to
`_convert_to_deribit_symbol`. -/
def deribitNormalize (s : Str) : Str := deribitConvertTo s

/-- The `params.data` payload of a Deribit ticker notification as read by
`DeribitExchange._handle_price_update`. -/
structure DeribitTickerData where
  instrument_name : Option Str
  last_price : Option ℚ
  best_bid_price : Option ℚ
  best_ask_price : Option ℚ
  timestamp : ℤ
deriving DecidableEq, Repr

/-- `DeribitExchange._handle_price_update` on the extracted `data` payload:
the emitted `price_update` record, or `none` when the frame is dropped.
Missing or falsy (zero) prices and non-positive prices are rejected; the
record is built by `format_price_data`, which routes the symbol through
Deribit's `normalize_symbol` override. -/
def deribitHandlePriceUpdate (d : DeribitTickerData) (nowMs : ℤ) :
    Option PriceData :=
  match d.instrument_name with
  | none => none
  | some instr =>
    if instr = [] then none
    else
      let symbol := deribitConvertFrom instr
      match d.last_price, d.best_bid_price, d.best_ask_price with
      | some lp, some bp, some ap =>
        if lp = 0 ∨ bp = 0 ∨ ap = 0 then none
        else if lp ≤ 0 ∨ bp ≤ 0 ∨ ap ≤ 0 then none
        else
          some (formatPriceData "deribit".toList deribitNormalize symbol lp
            (some bp) (some ap) d.timestamp nowMs)
      | _, _, _ => none

/-- One `{display_symbol, exchange, ticker}` entry of the `symbol_ticker`
configuration consumed by the backend. -/
structure PairCfg where
  display_symbol : Str
  exchange : Str
  ticker : Str
deriving DecidableEq, Repr

/-- The linear scan of `PriceFetcher._handle_price_update_with_mapping`:
first configured pair whose exchange and ticker match. -/
def findDisplay : List PairCfg → Str → Str → Option Str
  | [], _, _ => none
  | p :: ps, exName, ticker =>
    if p.exchange = exName ∧ p.ticker = ticker then some p.display_symbol
    else findDisplay ps exName ticker

/-- `PriceFetcher._handle_price_update_with_mapping`: re-key the record to
the configured display symbol when a pair matches, else pass it through
unchanged; then hand it to `update_price`. -/
def handlePriceUpdateWithMapping (st : PMState) (pairs : List PairCfg)
    (exName : Str) (data : PriceData) (now : ℚ) : UpdResult :=
  match findDisplay pairs exName data.symbol with
  | some d => updatePrice st { data with symbol := d } now
  | none => updatePrice st data now

/-- The `polling_interval` of `CoindcxExchange.__init__` (seconds). -/
def coindcxPollingInterval : ℚ := 2

/-- One entry of the CoinDCX REST ticker payload as read by
`_handle_rest_ticker_update`. -/
structure DcxTicker where
  market : Option Str
  last_price : Option ℚ
  bid : Option ℚ
  ask : Option ℚ
  timestamp : ℤ
deriving DecidableEq, Repr

/-- The timestamp conversion in `_handle_rest_ticker_update`: second-based
stamps (below 1e12) are scaled to milliseconds. -/
def coindcxConvertTs (ts : ℤ) : ℤ :=
  if ts ≠ 0 ∧ ts < 1000000000000 then ts * 1000 else ts

/-- `CoindcxExchange._handle_rest_ticker_update`: the emitted record for
one fetched ticker, or `none` when it is dropped.  A falsy last price is
dropped; missing or falsy bid/ask are synthesized as 0.1 percent around the
last price; a non-positive last price is dropped.  There is no
change-detection against previously emitted prices. -/
def coindcxHandleRestTicker (t : DcxTicker) (nowMs : ℤ) : Option PriceData :=
  match t.market with
  | none => none
  | some m =>
    if m = [] then none
    else
      let symbol := upperStr m
      match t.last_price with
      | none => none
      | some lp =>
        if lp = 0 then none
        else
          let bid :=
            match t.bid with
            | some b => if b = 0 then lp * (999 / 1000) else b
            | none => lp * (999 / 1000)
          let ask :=
            match t.ask with
            | some a => if a = 0 then lp * (1001 / 1000) else a
            | none => lp * (1001 / 1000)
          if lp > 0 then
            some (formatPriceData "coindcx".toList upperStr symbol lp
              (some bid) (some ask) (coindcxConvertTs t.timestamp) nowMs)
          else none

/-- `CoindcxExchange._process_ticker_response` on a list payload: each
ticker whose market is truthy and among the tracked symbols is handed to
`_handle_rest_ticker_update`; the emitted records in order. -/
def coindcxProcessTickers (targets : List Str) (data : List DcxTicker)
    (nowMs : ℤ) : List PriceData :=
  data.foldr
    (fun t acc =>
      match t.market with
      | some m =>
        if m ≠ [] ∧ m ∈ targets then
          match coindcxHandleRestTicker t nowMs with
          | some pd => pd :: acc
          | none => acc
        else acc
      | none => acc)
    []

/-- The emissions of successive iterations of `_polling_loop`, one fetched
payload per poll: the loop keeps no state between polls. -/
def coindcxProcessPolls (targets : List Str) (polls : List (List DcxTicker))
    (nowMs : ℤ) : List PriceData :=
  polls.foldr (fun p acc => coindcxProcessTickers targets p nowMs ++ acc) []

/-- Phemex's per-symbol `scale_factors` table. -/
def phemexScaleFactors : List (Str × ℚ) :=
  [("BTCUSD".toList, 10000),
   ("ETHUSD".toList, 10000),
   ("XRPUSD".toList, 100000000),
   ("ADAUSD".toList, 100000000)]

/-- `self.scale_factors.get(phemex_symbol, 10000)`. -/
def phemexScaleOf (sym : Str) : ℚ :=
  (alookup phemexScaleFactors sym).getD 10000

/-- `PhemexExchange._convert_from_phemex_symbol`. -/
def phemexConvertFrom (ps : Str) : Str :=
  if ps = "BTCUSD".toList then "BTCUSDT".toList
  else if ps = "ETHUSD".toList then "ETHUSDT".toList
  else strReplace "USD".toList "USDT".toList ps

/-- Validity of one orderbook level in
`_handle_direct_orderbook_update`: `len(entry) >= 2 and entry[1] > 0`. -/
def phemexEntryValid : List ℚ → Bool
  | _ :: q :: _ => decide (q > 0)
  | _ => false

/-- A Phemex direct orderbook frame (`book` and `symbol` keys present),
levels as `[price, quantity, ...]` lists of scaled integers, timestamp in
nanoseconds. -/
structure PhemexBookMsg where
  symbol : Option Str
  bids : List (List ℚ)
  asks : List (List ℚ)
  timestamp : ℤ
deriving DecidableEq, Repr

/-- `PhemexExchange._handle_direct_orderbook_update`: keep levels with
positive quantity, take the first valid bid and ask, divide by the
per-symbol scale (default 10000), use the mid price as last, and convert
the nanosecond timestamp to milliseconds by floor division. -/
def phemexHandleDirectOrderbook (m : PhemexBookMsg) (nowMs : ℤ) :
    Option PriceData :=
  match m.symbol with
  | none => none
  | some psym =>
    if psym = [] then none
    else
      let symbol := phemexConvertFrom psym
      match m.bids.filter phemexEntryValid, m.asks.filter phemexEntryValid with
      | vb :: _, va :: _ =>
        match vb.head?, va.head? with
        | some bidRaw, some askRaw =>
          let scale := phemexScaleOf psym
          let bid := bidRaw / scale
          let ask := askRaw / scale
          let price := (bid + ask) / 2
          let ts : ℤ := Int.fdiv m.timestamp 1000000
          some (formatPriceData "phemex".toList upperStr symbol price
            (some bid) (some ask) ts nowMs)
        | _, _ => none
      | _, _ => none

/-- Positivity of one stored quote: spec invariant 2 for a single entry. -/
def QuotePos (q : Quote) : Prop :=
  0 < q.price ∧ (∀ b, q.bid = some b → 0 < b) ∧
    (∀ a, q.ask = some a → 0 < a)

/-- Positivity of every quote stored in a prices table. -/
def PosPrices (l : List (Str × List (Str × Quote))) : Prop :=
  ∀ p ∈ l, ∀ eq ∈ p.2, QuotePos eq.2

/-- Spec invariant 2 for the whole book state. -/
def PosInv (st : PMState) : Prop := PosPrices st.prices

/-- A price-update record whose prices have been validated by its codec:
positive last price, positive bid/ask whenever present. -/
def PosInput (pd : PriceData) : Prop :=
  0 < pd.price ∧ (∀ b, pd.bid = some b → 0 < b) ∧
    (∀ a, pd.ask = some a → 0 < a)

/-- The operation carries a validated update record. -/
def OpValidated : PMOp → Prop
  | .update pd _ => PosInput pd
  | .reap _ _ => True

/-- The operation's update symbol (if any) contains no dash. -/
def OpNoDashSymbol : PMOp → Prop
  | .update pd _ => NoDash pd.symbol
  | .reap _ _ => True

/-- The book's timestamp-bookkeeping invariant (spec invariant 1),
restricted to dash-free display symbols: a quote entry for `(s, e)` exists
iff the `last_updated` entry for the key built from `s` and `e` exists. -/
def BookInv (st : PMState) : Prop :=
  ∀ s e, NoDash s →
    ((∃ inner, alookup st.prices s = some inner ∧
        (alookup inner e).isSome) ↔
      (alookup st.lastUpdated (skey s e)).isSome)

/-- Structural well-formedness of the book: all stored symbols are
dash-free and every timestamp key is the encoding of a dash-free symbol
with an exchange. -/
def BookWF (st : PMState) : Prop :=
  (∀ p ∈ st.prices, NoDash p.1) ∧
  (∀ kv ∈ st.lastUpdated, ∃ s e, kv.1 = skey s e ∧ NoDash s) ∧
  BookInv st

/-- Well-formedness of the reap loop accumulator: dash-free stored
symbols, well-formed timestamp keys, and the existence iff between the two
tables. -/
def ReapWF (acc : ReapAcc) : Prop :=
  (∀ p ∈ acc.prices, NoDash p.1) ∧
  (∀ kv ∈ acc.lastUpdated, ∃ s e, kv.1 = skey s e ∧ NoDash s) ∧
  (∀ s e, NoDash s →
    ((∃ inner, alookup acc.prices s = some inner ∧
        (alookup inner e).isSome) ↔
      (alookup acc.lastUpdated (skey s e)).isSome))

/-- A concrete two-exchange book used as a test fixture in witnesses. -/
def sampleBook : PMState :=
  ⟨[("BTCUSDT".toList,
      [("binance".toList, ⟨60000, some 59999, some 60001, 1000⟩),
       ("bybit".toList, ⟨60100, none, none, 2000⟩)])], [], []⟩

/-!
Helper lemmas about the dictionary model and key encoding, followed by the
claim theorems.
-/

attribute [local semireducible] Rat.mul Rat.inv Rat.add Rat.sub

theorem alookup_ne_nil {α : Type} {l : List (Str × α)} {k : Str} {v : α}
    (h : alookup l k = some v) : l ≠ [] := by
  cases l with
  | nil => simp [alookup] at h
  | cons x xs => simp

theorem mem_of_alookup {α : Type} {l : List (Str × α)} {k : Str} {v : α}
    (h : alookup l k = some v) : (k, v) ∈ l := by
  induction l with
  | nil => simp [alookup] at h
  | cons x xs ih =>
    obtain ⟨k1, v1⟩ := x
    rw [alookup] at h
    by_cases hk : k1 = k
    · rw [if_pos hk] at h
      have hv : v1 = v := by injection h
      subst hk hv
      exact List.mem_cons_self _ _
    · rw [if_neg hk] at h
      exact List.mem_cons_of_mem _ (ih h)

theorem alookup_aset_self {α : Type} (l : List (Str × α)) (k : Str) (v : α) :
    alookup (aset l k v) k = some v := by
  induction l with
  | nil => simp [aset, alookup]
  | cons x xs ih =>
    obtain ⟨k1, v1⟩ := x
    by_cases hk : k1 = k <;> simp_all [aset, alookup]

theorem alookup_aset_ne {α : Type} (l : List (Str × α)) (k k' : Str) (v : α)
    (h : k' ≠ k) : alookup (aset l k v) k' = alookup l k' := by
  induction l with
  | nil => simp [aset, alookup, Ne.symm h]
  | cons x xs ih =>
    obtain ⟨k1, v1⟩ := x
    by_cases hk : k1 = k <;> by_cases hk' : k1 = k' <;>
      simp_all [aset, alookup, Ne.symm h]

theorem alookup_aerase {α : Type} (l : List (Str × α)) (k k' : Str) :
    alookup (aerase l k) k' = if k' = k then none else alookup l k' := by
  induction l with
  | nil => simp [aerase, alookup]
  | cons x xs ih =>
    obtain ⟨k1, v1⟩ := x
    by_cases hk : k1 = k <;> by_cases hk' : k1 = k' <;>
      by_cases hkk : k' = k <;>
      simp_all [aerase, alookup, List.filter_cons]

theorem mem_aerase {α : Type} (l : List (Str × α)) (k : Str) (x : Str × α) :
    x ∈ aerase l k ↔ x ∈ l ∧ x.1 ≠ k := by
  simp [aerase, List.mem_filter]

theorem mem_aset {α : Type} (l : List (Str × α)) (k : Str) (v : α)
    (x : Str × α) (h : x ∈ aset l k v) : x = (k, v) ∨ x ∈ l := by
  induction l with
  | nil => simpa [aset] using h
  | cons y ys ih =>
    obtain ⟨k1, v1⟩ := y
    rw [aset] at h
    by_cases hk : k1 = k
    · rw [if_pos hk] at h
      rcases List.mem_cons.mp h with h | h
      · exact Or.inl h
      · exact Or.inr (List.mem_cons_of_mem _ h)
    · rw [if_neg hk] at h
      rcases List.mem_cons.mp h with h | h
      · exact Or.inr (by simp [h])
      · rcases ih h with h' | h'
        · exact Or.inl h'
        · exact Or.inr (List.mem_cons_of_mem _ h')

theorem splitDash_skey (s e : Str) (h : NoDash s) :
    splitDash (skey s e) = (s, e) := by
  induction s with
  | nil => simp [skey, splitDash]
  | cons c cs ih =>
    have hc : c ≠ '-' := by
      intro hc
      exact h (by simp [hc])
    have hcs : NoDash cs := fun hm => h (List.mem_cons_of_mem _ hm)
    have : skey (c :: cs) e = c :: skey cs e := by simp [skey]
    rw [this, splitDash, if_neg hc, ih hcs]

theorem skey_inj {s1 e1 s2 e2 : Str} (h1 : NoDash s1) (h2 : NoDash s2)
    (h : skey s1 e1 = skey s2 e2) : s1 = s2 ∧ e1 = e2 := by
  have := splitDash_skey s1 e1 h1
  rw [h, splitDash_skey s2 e2 h2] at this
  exact ⟨(Prod.mk.injEq .. ▸ this).1.symm, (Prod.mk.injEq .. ▸ this).2.symm⟩

/-- Claim C10: `is_stale(symbol, exchange, max_age)` returns `True` when no
timestamp entry exists for the pair (never recorded, or reaped); otherwise
it returns `True` exactly when the entry's age strictly exceeds
`max_age`. -/
theorem is_stale_spec (st : PMState) (now : ℚ) (s e : Str) (maxAge : ℚ) :
    (alookup st.lastUpdated (skey s e) = none →
      isStale st now s e maxAge = true) ∧
    (∀ t, alookup st.lastUpdated (skey s e) = some t →
      (isStale st now s e maxAge = true ↔ now - t > maxAge)) := by
  constructor
  · intro h
    simp [isStale, h]
  · intro t h
    simp [isStale, h]

/-- Witness for C10 at concrete inputs: an absent pair is stale, and a
recorded pair is stale exactly when its age exceeds the bound. -/
theorem is_stale_spec_witness :
    isStale emptyPM 100 "BTCUSDT".toList "binance".toList 60 = true ∧
    (isStale ⟨[], [(skey "X".toList "e".toList, 10)], []⟩ 100
        "X".toList "e".toList 60 = true ↔ (100 : ℚ) - 10 > 60) :=
  ⟨(is_stale_spec emptyPM 100 "BTCUSDT".toList "binance".toList 60).1
      (by decide),
   (is_stale_spec ⟨[], [(skey "X".toList "e".toList, 10)], []⟩ 100
      "X".toList "e".toList 60).2 10 (by decide)⟩

/-- Claim C9: a Phemex orderbook frame for `BTCUSD` with scaled-integer
best bid 600010000 and best ask 600030000 decodes with scale 10000 to
bid 60001, ask 60003 and last = (bid + ask) / 2 = 60002; any symbol absent
from the scale table falls back to the declared default factor 10000. -/
theorem phemex_scaling_spec :
    (∃ pd, phemexHandleDirectOrderbook
        ⟨some "BTCUSD".toList, [[600010000, 1]], [[600030000, 1]], 0⟩ 0 =
          some pd ∧
      pd.bid = some 60001 ∧ pd.ask = some 60003 ∧ pd.price = 60002 ∧
      pd.price = (60001 + 60003) / 2) ∧
    (∀ sym, alookup phemexScaleFactors sym = none →
      phemexScaleOf sym = 10000) := by
  constructor
  · exact ⟨⟨"phemex".toList, "BTCUSDT".toList, 60002, some 60001, some 60003,
      0⟩, by decide, by decide, by decide, by decide, by norm_num⟩
  · intro sym h
    simp [phemexScaleOf, h]

/-- Witness for C9: a symbol outside the scale table really is assigned
the default factor. -/
theorem phemex_scaling_spec_witness :
    alookup phemexScaleFactors "SOLUSD".toList = none ∧
    phemexScaleOf "SOLUSD".toList = 10000 :=
  ⟨by decide, phemex_scaling_spec.2 "SOLUSD".toList (by decide)⟩

/-- Claim C7 counterexample: `update_price` validates nothing, so the
stored last prices -10 and -5 are reachable; for them `get_spread` returns
`spread_percentage = 0` although the cheaper price is -10, not 0 — the
claimed formula demands |p1 - p2| / min * 100 = -50 there, reserving 0 for
`min == 0` only, while the code returns 0 whenever `min <= 0`. -/
theorem get_spread_negative_price_cex :
    getSpread (updatePrice (updatePrice emptyPM
        ⟨"a".toList, "BTCUSDT".toList, -10, none, none, 0⟩ 0).state
        ⟨"b".toList, "BTCUSDT".toList, -5, none, none, 0⟩ 0).state
      "BTCUSDT".toList "a".toList "b".toList =
      some ⟨"BTCUSDT".toList, "a".toList, "b".toList, 5, 0, "b".toList,
        "a".toList, -5, -10, 0⟩ ∧
    min (-10 : ℚ) (-5) ≠ 0 ∧
    |(-10 : ℚ) - (-5)| / min (-10 : ℚ) (-5) * 100 = -50 ∧
    (0 : ℚ) ≠ -50 :=
  ⟨by decide, by norm_num, by norm_num, by norm_num⟩

/-- Claim C7 as amended: for a symbol and two exchanges that both hold a
stored quote, `get_spread` returns the absolute difference of the two
stored last prices; the percentage is |p1 - p2| / min * 100 when the
cheaper price is strictly positive and 0 whenever it is zero or negative
(the code tests `min_price > 0`); higher/lower and their prices identify
the dearer and cheaper exchange; it returns `None` when the symbol or
either exchange has no entry. -/
theorem get_spread_spec (st : PMState) (s e1 e2 : Str) :
    (getPricesBySymbol st s = none → getSpread st s e1 e2 = none) ∧
    (∀ inner, getPricesBySymbol st s = some inner →
      alookup inner e1 = none ∨ alookup inner e2 = none →
      getSpread st s e1 e2 = none) ∧
    (∀ inner q1 q2, getPricesBySymbol st s = some inner →
      alookup inner e1 = some q1 → alookup inner e2 = some q2 →
      ∃ r, getSpread st s e1 e2 = some r ∧
        r.spread = |q1.price - q2.price| ∧
        (0 < min q1.price q2.price → r.spread_percentage =
          |q1.price - q2.price| / min q1.price q2.price * 100) ∧
        (min q1.price q2.price ≤ 0 → r.spread_percentage = 0) ∧
        r.higher_price = max q1.price q2.price ∧
        r.lower_price = min q1.price q2.price ∧
        (q1.price > q2.price → r.higher = e1 ∧ r.lower = e2) ∧
        (q2.price > q1.price → r.higher = e2 ∧ r.lower = e1)) := by
  refine ⟨fun h => by simp [getSpread, h], ?_, ?_⟩
  · intro inner hin hnone
    rw [getSpread, hin]
    by_cases hemp : inner = []
    · simp [hemp]
    · rcases hnone with h1 | h1 <;> simp [hemp, h1]
  · intro inner q1 q2 hin h1 h2
    have hemp : ¬inner = [] := fun h => alookup_ne_nil h1 h
    simp only [getSpread, hin, if_neg hemp, h1, h2]
    refine ⟨_, rfl, rfl, ?_, ?_, rfl, rfl, ?_, ?_⟩
    · intro hmin
      simp [hmin]
    · intro hmin
      rw [if_neg (not_lt.mpr hmin)]
    · intro hgt
      constructor
      · simp [hgt]
      · simp [not_lt_of_gt hgt]
    · intro hgt
      constructor
      · simp [not_lt_of_gt hgt, asymm hgt]
      · simp [hgt]

/-- Witness for C7 at a concrete two-exchange book: the none cases and the
computed spread record. -/
theorem get_spread_spec_witness :
    getSpread sampleBook "ETHUSDT".toList "binance".toList "bybit".toList =
      none ∧
    getSpread sampleBook "BTCUSDT".toList "binance".toList "okx".toList =
      none ∧
    ∃ r, getSpread sampleBook "BTCUSDT".toList "binance".toList
        "bybit".toList = some r ∧
      r.spread = |(60000 : ℚ) - 60100| ∧
      (0 < min (60000 : ℚ) 60100 →
        r.spread_percentage =
          |(60000 : ℚ) - 60100| / min (60000 : ℚ) 60100 * 100) ∧
      ((60100 : ℚ) > 60000 →
        r.higher = "bybit".toList ∧ r.lower = "binance".toList) := by
  refine ⟨(get_spread_spec sampleBook "ETHUSDT".toList "binance".toList
      "bybit".toList).1 (by decide),
    (get_spread_spec sampleBook "BTCUSDT".toList "binance".toList
      "okx".toList).2.1
      [("binance".toList, ⟨60000, some 59999, some 60001, 1000⟩),
       ("bybit".toList, ⟨60100, none, none, 2000⟩)]
      (by decide) (Or.inr (by decide)), ?_⟩
  obtain ⟨r, hr, hs, hpos, hz, hhp, hlp, hgt1, hgt2⟩ :=
    (get_spread_spec sampleBook "BTCUSDT".toList "binance".toList
      "bybit".toList).2.2
      [("binance".toList, ⟨60000, some 59999, some 60001, 1000⟩),
       ("bybit".toList, ⟨60100, none, none, 2000⟩)]
      ⟨60000, some 59999, some 60001, 1000⟩ ⟨60100, none, none, 2000⟩
      (by decide) (by decide) (by decide)
  exact ⟨r, hr, hs, hpos, hgt2⟩

theorem reapStep_lastUpdated (acc : ReapAcc) (k : Str) :
    (reapStep acc k).lastUpdated = aerase acc.lastUpdated k := by
  rw [reapStep]
  cases alookup acc.prices (splitDash k).1 with
  | none => rfl
  | some inner =>
    by_cases h : (alookup inner (splitDash k).2).isSome <;>
      simp only [h, if_true, if_false, Bool.false_eq_true] <;>
      split_ifs <;> rfl

theorem foldl_reapStep_lastUpdated (keys : List Str) (acc : ReapAcc) :
    (keys.foldl reapStep acc).lastUpdated =
      keys.foldl (fun m k => aerase m k) acc.lastUpdated := by
  induction keys generalizing acc with
  | nil => rfl
  | cons k ks ih =>
    rw [List.foldl_cons, List.foldl_cons, ih, reapStep_lastUpdated]

theorem mem_foldl_aerase {α : Type} (keys : List Str) (lu : List (Str × α))
    (x : Str × α) :
    x ∈ keys.foldl (fun m k => aerase m k) lu ↔ x ∈ lu ∧ x.1 ∉ keys := by
  induction keys generalizing lu with
  | nil => simp
  | cons k ks ih =>
    rw [List.foldl_cons, ih, mem_aerase]
    constructor
    · rintro ⟨⟨h1, h2⟩, h3⟩
      exact ⟨h1, by simp [h2, h3]⟩
    · rintro ⟨h1, h2⟩
      simp only [List.mem_cons, not_or] at h2
      exact ⟨⟨h1, h2.1⟩, h2.2⟩

theorem fresh_after_erase_stale {α : Type} (p : Str × α → Bool)
    (lu : List (Str × α)) :
    ∀ x ∈ ((lu.filter p).map (·.1)).foldl (fun m k => aerase m k) lu,
      p x = false := by
  intro x hx
  rw [mem_foldl_aerase] at hx
  by_contra hpx
  rw [Bool.not_eq_false] at hpx
  exact hx.2 (List.mem_map.mpr ⟨x, List.mem_filter.mpr ⟨hx.1, hpx⟩, rfl⟩)

theorem removeStaleData_lastUpdated (st : PMState) (now maxAge : ℚ) :
    ((removeStaleData st now maxAge).1).lastUpdated =
      (((st.lastUpdated.filter fun kv =>
          decide (now - kv.2 > maxAge))).map (·.1)).foldl
        (fun m k => aerase m k) st.lastUpdated := by
  simp only [removeStaleData]
  exact foldl_reapStep_lastUpdated _ _

theorem removeStaleData_lastArbAlert (st : PMState) (now maxAge : ℚ) :
    ∃ arb1, ((removeStaleData st now maxAge).1).lastArbAlert =
      ((List.filter (fun kv => decide (now - kv.2 > 3600)) arb1).map
        (·.1)).foldl (fun m k => aerase m k) arb1 := by
  simp only [removeStaleData]
  exact ⟨List.foldl (fun m s => aerase m s) st.lastArbAlert
    (List.foldl reapStep ⟨st.prices, st.lastUpdated, 0, []⟩
      ((st.lastUpdated.filter fun kv =>
        decide (now - kv.2 > maxAge)).map (·.1))).symsRemoved, rfl⟩

theorem removeStaleData_of_fresh (st : PMState) (now maxAge : ℚ)
    (hA : st.lastUpdated.filter (fun kv => decide (now - kv.2 > maxAge)) = [])
    (hB : st.lastArbAlert.filter (fun kv => decide (now - kv.2 > 3600)) = []) :
    removeStaleData st now maxAge = (st, 0) := by
  simp only [removeStaleData, hA, List.map_nil, List.foldl_nil, hB]

/-- Claim C8: reaping twice in succession at the same instant deletes the
same quote entries as a single reap (the second call leaves the state
unchanged) and the second call returns a deleted-entry count of 0. -/
theorem reap_idempotent (st : PMState) (now maxAge : ℚ) :
    (removeStaleData (removeStaleData st now maxAge).1 now maxAge).1 =
      (removeStaleData st now maxAge).1 ∧
    (removeStaleData (removeStaleData st now maxAge).1 now maxAge).2 = 0 := by
  have hA : ((removeStaleData st now maxAge).1).lastUpdated.filter
      (fun kv => decide (now - kv.2 > maxAge)) = [] := by
    rw [List.filter_eq_nil]
    intro a ha
    rw [removeStaleData_lastUpdated] at ha
    simp [fresh_after_erase_stale _ st.lastUpdated a ha]
  obtain ⟨arb1, harb⟩ := removeStaleData_lastArbAlert st now maxAge
  have hB : ((removeStaleData st now maxAge).1).lastArbAlert.filter
      (fun kv => decide (now - kv.2 > 3600)) = [] := by
    rw [List.filter_eq_nil]
    intro a ha
    rw [harb] at ha
    simp [fresh_after_erase_stale _ arb1 a ha]
  have h := removeStaleData_of_fresh ((removeStaleData st now maxAge).1)
    now maxAge hA hB
  rw [h]
  exact ⟨rfl, rfl⟩

/-- Claim C4 counterexample: the polling cadence is 2 seconds (not in the
claimed 3 to 5 second band), and there is no change-detection: two
consecutive polls returning identical payloads for a tracked symbol emit
two price updates with the same price. -/
theorem coindcx_no_change_detection_cex :
    coindcxPollingInterval = 2 ∧
    ¬(3 ≤ coindcxPollingInterval ∧ coindcxPollingInterval ≤ 5) ∧
    (coindcxProcessPolls ["BTCUSDT".toList]
      [[⟨some "BTCUSDT".toList, some 50000, some 49999, some 50001, 0⟩],
       [⟨some "BTCUSDT".toList, some 50000, some 49999, some 50001, 0⟩]]
      0).length = 2 ∧
    (coindcxProcessPolls ["BTCUSDT".toList]
      [[⟨some "BTCUSDT".toList, some 50000, some 49999, some 50001, 0⟩],
       [⟨some "BTCUSDT".toList, some 50000, some 49999, some 50001, 0⟩]]
      0).map (·.price) = [50000, 50000] := by
  refine ⟨rfl, ?_, by decide, by decide⟩
  intro h
  have := h.1
  norm_num [coindcxPollingInterval] at this

/-- Claim C4 as amended: the polled REST codec runs on a 2 second cadence,
emits only for tickers whose market is among the configured symbols, and
performs no change-detection: the emissions of a poll depend only on that
poll's payload, so `n` identical consecutive polls produce `n` times the
emissions of one poll. -/
theorem coindcx_polling_amended :
    coindcxPollingInterval = 2 ∧
    (∀ targets data now r, r ∈ coindcxProcessTickers targets data now →
      ∃ t, t ∈ data ∧ ∃ m, t.market = some m ∧ m ≠ [] ∧ m ∈ targets ∧
        coindcxHandleRestTicker t now = some r) ∧
    (∀ targets p now n,
      (coindcxProcessPolls targets (List.replicate n p) now).length =
        n * (coindcxProcessTickers targets p now).length) := by
  refine ⟨rfl, ?_, ?_⟩
  · intro targets data now r hr
    induction data with
    | nil => simp [coindcxProcessTickers] at hr
    | cons t ts ih =>
      have hcons : coindcxProcessTickers targets (t :: ts) now =
          (match t.market with
           | some m =>
             if m ≠ [] ∧ m ∈ targets then
               match coindcxHandleRestTicker t now with
               | some pd => pd :: coindcxProcessTickers targets ts now
               | none => coindcxProcessTickers targets ts now
             else coindcxProcessTickers targets ts now
           | none => coindcxProcessTickers targets ts now) := rfl
      rw [hcons] at hr
      cases hm : t.market with
      | none =>
        rw [hm] at hr
        obtain ⟨t', ht', rest⟩ := ih hr
        exact ⟨t', List.mem_cons_of_mem _ ht', rest⟩
      | some m =>
        rw [hm] at hr
        dsimp only at hr
        by_cases hcond : m ≠ [] ∧ m ∈ targets
        · rw [if_pos hcond] at hr
          cases hh : coindcxHandleRestTicker t now with
          | none =>
            rw [hh] at hr
            obtain ⟨t', ht', rest⟩ := ih hr
            exact ⟨t', List.mem_cons_of_mem _ ht', rest⟩
          | some pd =>
            rw [hh] at hr
            rcases List.mem_cons.mp hr with h | h
            · exact ⟨t, List.mem_cons_self _ _,
                m, hm, hcond.1, hcond.2, by rw [hh, h]⟩
            · obtain ⟨t', ht', rest⟩ := ih h
              exact ⟨t', List.mem_cons_of_mem _ ht', rest⟩
        · rw [if_neg hcond] at hr
          obtain ⟨t', ht', rest⟩ := ih hr
          exact ⟨t', List.mem_cons_of_mem _ ht', rest⟩
  · intro targets p now n
    induction n with
    | zero => simp [coindcxProcessPolls]
    | succ n ih =>
      have : coindcxProcessPolls targets (List.replicate (n + 1) p) now =
          coindcxProcessTickers targets p now ++
            coindcxProcessPolls targets (List.replicate n p) now := by
        rw [List.replicate_succ]
        rfl
      rw [this, List.length_append, ih]
      ring

/-- Witness for the amended C4: the single emission of a concrete poll is
traced back to its configured tracked ticker. -/
theorem coindcx_polling_amended_witness :
    ⟨"coindcx".toList, "BTCUSDT".toList, 50000, some 49999, some 50001,
      (0 : ℤ)⟩ ∈ coindcxProcessTickers ["BTCUSDT".toList]
      [⟨some "BTCUSDT".toList, some 50000, some 49999, some 50001, 0⟩] 0 ∧
    ∃ t, t ∈ [(⟨some "BTCUSDT".toList, some 50000, some 49999, some 50001,
        0⟩ : DcxTicker)] ∧ ∃ m, t.market = some m ∧ m ≠ [] ∧
      m ∈ ["BTCUSDT".toList] ∧ coindcxHandleRestTicker t 0 =
        some ⟨"coindcx".toList, "BTCUSDT".toList, 50000, some 49999,
          some 50001, 0⟩ :=
  ⟨by decide, coindcx_polling_amended.2.1 ["BTCUSDT".toList]
    [⟨some "BTCUSDT".toList, some 50000, some 49999, some 50001, 0⟩] 0
    ⟨"coindcx".toList, "BTCUSDT".toList, 50000, some 49999, some 50001, 0⟩
    (by decide)⟩

/-- Claim C5 counterexample: with an alert for ETHUSDT at t = 0, an update
at t = 300 s emits a second alert although the previous alert did not occur
more than the cooldown (300 s) earlier — the code tests `>=`, not `>` — so
the closed window from 0 to 300 s of exactly cooldown length contains two
arbitrage events. -/
theorem arbitrage_cooldown_boundary_cex :
    alertEvents emptyPM
      [(⟨"a".toList, "ETHUSDT".toList, 3000, none, none, 0⟩, 0),
       (⟨"b".toList, "ETHUSDT".toList, 3010, none, none, 0⟩, 0),
       (⟨"a".toList, "ETHUSDT".toList, 3000, none, none, 0⟩, 300)] =
      [(0, "ETHUSDT".toList), (300, "ETHUSDT".toList)] ∧
    ¬((300 : ℚ) - 0 > arbitrageAlertCooldown) ∧
    (300 : ℚ) - 0 = arbitrageAlertCooldown := by
  refine ⟨by decide, ?_, by norm_num [arbitrageAlertCooldown]⟩
  norm_num [arbitrageAlertCooldown]

theorem shouldSendAlert_ge (st : PMState) (s : Str) (now : ℚ)
    (h : shouldSendAlert st s now = true) :
    ∀ t, alookup st.lastArbAlert s = some t →
      now - t ≥ arbitrageAlertCooldown := by
  intro t ht
  rw [shouldSendAlert, ht] at h
  exact of_decide_eq_true h

theorem updatePrice_alert_cases (st : PMState) (pd : PriceData) (now : ℚ) :
    ((updatePrice st pd now).alerted = true ∧
      shouldSendAlert st pd.symbol now = true ∧
      (updatePrice st pd now).state.lastArbAlert =
        aset st.lastArbAlert pd.symbol now) ∨
    ((updatePrice st pd now).alerted = false ∧
      (updatePrice st pd now).state.lastArbAlert = st.lastArbAlert) := by
  rw [updatePrice]
  split_ifs with h
  · exact Or.inl ⟨rfl, h.2, rfl⟩
  · exact Or.inr ⟨rfl, rfl⟩

theorem alertEvents_gap_aux (ops : List (PriceData × ℚ)) (st : PMState) :
    List.Pairwise
      (fun a b : ℚ × Str => a.2 = b.2 →
        b.1 - a.1 ≥ arbitrageAlertCooldown) (alertEvents st ops) ∧
    (∀ e ∈ alertEvents st ops, ∀ t0,
      alookup st.lastArbAlert e.2 = some t0 →
      e.1 - t0 ≥ arbitrageAlertCooldown) := by
  induction ops generalizing st with
  | nil => simp [alertEvents]
  | cons op rest ih =>
    obtain ⟨pd, tm⟩ := op
    have hcd : (0 : ℚ) ≤ arbitrageAlertCooldown := by
      norm_num [arbitrageAlertCooldown]
    rcases updatePrice_alert_cases st pd tm with ⟨ha, hs, harb⟩ | ⟨ha, harb⟩
    · have hev : alertEvents st ((pd, tm) :: rest) =
          (tm, pd.symbol) :: alertEvents (updatePrice st pd tm).state rest := by
        simp only [alertEvents, ha, if_true]
      rw [hev]
      have ihs := ih (updatePrice st pd tm).state
      constructor
      · refine List.Pairwise.cons ?_ ihs.1
        intro b hb hsym
        exact ihs.2 b hb tm
          (by rw [harb, ← hsym]; exact alookup_aset_self _ _ _)
      · intro e he t0 ht0
        rcases List.mem_cons.mp he with he | he
        · rw [he] at ht0 ⊢
          exact shouldSendAlert_ge st pd.symbol tm hs t0 ht0
        · by_cases hsym : e.2 = pd.symbol
          · have h1 := ihs.2 e he tm
              (by rw [harb, hsym]; exact alookup_aset_self _ _ _)
            have h2 := shouldSendAlert_ge st pd.symbol tm hs t0
              (by rw [← hsym]; exact ht0)
            linarith
          · exact ihs.2 e he t0
              (by rw [harb, alookup_aset_ne _ _ _ _ hsym]; exact ht0)
    · have hev : alertEvents st ((pd, tm) :: rest) =
          alertEvents (updatePrice st pd tm).state rest := by
        simp only [alertEvents, ha, Bool.false_eq_true, if_false]
      rw [hev]
      have ihs := ih (updatePrice st pd tm).state
      exact ⟨ihs.1, fun e he t0 ht0 =>
        ihs.2 e he t0 (by rw [harb]; exact ht0)⟩

/-- Claim C5 as amended: `update_price` emits an arbitrage event only if no
previous alert exists or the previous alert for the symbol occurred at
least the cooldown (300 s, the code tests `>=`) earlier; consequently any
two alerts for the same symbol are at least the cooldown apart, so any
time window strictly shorter than the cooldown contains at most one alert
per symbol. -/
theorem arbitrage_cooldown_amended :
    (∀ st pd now t, (updatePrice st pd now).alerted = true →
      alookup st.lastArbAlert pd.symbol = some t →
      now - t ≥ arbitrageAlertCooldown) ∧
    (∀ st ops, List.Pairwise
      (fun a b : ℚ × Str => a.2 = b.2 →
        b.1 - a.1 ≥ arbitrageAlertCooldown) (alertEvents st ops)) := by
  constructor
  · intro st pd now t ha ht
    rcases updatePrice_alert_cases st pd now with ⟨_, hs, _⟩ | ⟨hf, _⟩
    · exact shouldSendAlert_ge st pd.symbol now hs t ht
    · rw [ha] at hf
      cases hf
  · intro st ops
    exact (alertEvents_gap_aux ops st).1

/-- Witness for the amended C5: a concrete update that re-alerts at exactly
the cooldown boundary satisfies the at-least-cooldown guarantee. -/
theorem arbitrage_cooldown_amended_witness :
    (updatePrice (updatePrice (updatePrice emptyPM
        ⟨"a".toList, "ETHUSDT".toList, 3000, none, none, 0⟩ 0).state
        ⟨"b".toList, "ETHUSDT".toList, 3010, none, none, 0⟩ 0).state
        ⟨"a".toList, "ETHUSDT".toList, 3000, none, none, 0⟩ 300).alerted =
      true ∧
    alookup (updatePrice (updatePrice emptyPM
        ⟨"a".toList, "ETHUSDT".toList, 3000, none, none, 0⟩ 0).state
        ⟨"b".toList, "ETHUSDT".toList, 3010, none, none, 0⟩ 0).state.lastArbAlert
      "ETHUSDT".toList = some 0 ∧
    (300 : ℚ) - 0 ≥ arbitrageAlertCooldown :=
  ⟨by decide, by decide,
    arbitrage_cooldown_amended.1
      (updatePrice (updatePrice emptyPM
        ⟨"a".toList, "ETHUSDT".toList, 3000, none, none, 0⟩ 0).state
        ⟨"b".toList, "ETHUSDT".toList, 3010, none, none, 0⟩ 0).state
      ⟨"a".toList, "ETHUSDT".toList, 3000, none, none, 0⟩ 300 0
      (by decide) (by decide)⟩

/-- Claim C6 counterexample: `update_price` performs no validation, so an
update record with last price -1 is accepted and stored as given; the
resulting book violates the positivity invariant. -/
theorem update_price_accepts_nonpositive_cex :
    alookup ((alookup (updatePrice emptyPM
        ⟨"x".toList, "S".toList, -1, none, none, 0⟩ 0).state.prices
      "S".toList).getD []) "x".toList = some ⟨-1, none, none, 0⟩ ∧
    ¬(0 < (-1 : ℚ)) ∧
    ¬PosInv (updatePrice emptyPM
      ⟨"x".toList, "S".toList, -1, none, none, 0⟩ 0).state := by
  refine ⟨by decide, by norm_num, ?_⟩
  intro h
  have hm := h ("S".toList, [("x".toList, ⟨-1, none, none, 0⟩)]) (by decide)
    ("x".toList, (⟨-1, none, none, 0⟩ : Quote)) (by decide)
  exact absurd hm.1 (by norm_num)

theorem updatePrice_state_prices (st : PMState) (pd : PriceData) (now : ℚ) :
    (updatePrice st pd now).state.prices =
      aset st.prices pd.symbol
        (aset ((alookup st.prices pd.symbol).getD []) pd.exchange
          ⟨pd.price, pd.bid, pd.ask, pd.timestamp⟩) := by
  rw [updatePrice]
  split_ifs <;> rfl

theorem updatePrice_state_lastUpdated (st : PMState) (pd : PriceData)
    (now : ℚ) :
    (updatePrice st pd now).state.lastUpdated =
      aset st.lastUpdated (skey pd.symbol pd.exchange) now := by
  rw [updatePrice]
  split_ifs <;> rfl

theorem updatePrice_posInv (st : PMState) (pd : PriceData) (now : ℚ)
    (h : PosInv st) (hin : PosInput pd) :
    PosInv (updatePrice st pd now).state := by
  rw [PosInv, updatePrice_state_prices]
  intro p hp eq heq
  rcases mem_aset _ _ _ _ hp with hpe | hpm
  · rw [hpe] at heq
    rcases mem_aset _ _ _ _ heq with hqe | hqm
    · rw [hqe]
      exact ⟨hin.1, hin.2.1, hin.2.2⟩
    · cases halk : alookup st.prices pd.symbol with
      | none => rw [halk] at hqm; simp at hqm
      | some inner =>
        rw [halk] at hqm
        exact h (pd.symbol, inner) (mem_of_alookup halk) eq hqm
  · exact h p hpm eq heq

theorem reapStep_posPrices (acc : ReapAcc) (k : Str)
    (h : PosPrices acc.prices) : PosPrices (reapStep acc k).prices := by
  rw [reapStep]
  cases halk : alookup acc.prices (splitDash k).1 with
  | none => exact h
  | some inner =>
    dsimp only
    by_cases hex : (alookup inner (splitDash k).2).isSome = true
    · rw [if_pos hex]
      by_cases hnil : aerase inner (splitDash k).2 = []
      · rw [if_pos hnil]
        intro p hp
        exact h p ((mem_aerase _ _ _).mp hp).1
      · rw [if_neg hnil]
        intro p hp eq heq
        rcases mem_aset _ _ _ _ hp with hpe | hpm
        · rw [hpe] at heq
          exact h ((splitDash k).1, inner) (mem_of_alookup halk) eq
            ((mem_aerase _ _ _).mp heq).1
        · exact h p hpm eq heq
    · rw [if_neg hex]
      exact h

theorem foldl_reapStep_posPrices (keys : List Str) (acc : ReapAcc)
    (h : PosPrices acc.prices) :
    PosPrices (keys.foldl reapStep acc).prices := by
  induction keys generalizing acc with
  | nil => exact h
  | cons k ks ih => exact ih _ (reapStep_posPrices _ _ h)

theorem removeStaleData_prices (st : PMState) (now maxAge : ℚ) :
    ((removeStaleData st now maxAge).1).prices =
      ((((st.lastUpdated.filter fun kv =>
          decide (now - kv.2 > maxAge))).map (·.1)).foldl reapStep
        ⟨st.prices, st.lastUpdated, 0, []⟩).prices := by
  simp only [removeStaleData]

theorem removeStaleData_posInv (st : PMState) (now maxAge : ℚ)
    (h : PosInv st) : PosInv (removeStaleData st now maxAge).1 := by
  rw [PosInv, removeStaleData_prices]
  exact foldl_reapStep_posPrices _ _ h

/-- Claim C6 as amended: the book itself never validates, so positivity is
an invariant only of validated traffic: `update_price` preserves it for
every validated input, reaping preserves it, and any operation sequence of
validated updates and reaps keeps every stored quote's last price positive
and bid/ask positive when present; the Deribit decode path only emits
validated records.  (`update_price` itself accepts non-positive inputs —
see the counterexample.) -/
theorem positivity_preserved_amended :
    (∀ st pd now, PosInv st → PosInput pd →
      PosInv (updatePrice st pd now).state) ∧
    (∀ st now maxAge, PosInv st → PosInv (removeStaleData st now maxAge).1) ∧
    (∀ ops, (∀ op ∈ ops, OpValidated op) → PosInv (runOps ops)) ∧
    (∀ d nowMs pd, deribitHandlePriceUpdate d nowMs = some pd →
      PosInput pd) := by
  refine ⟨updatePrice_posInv, removeStaleData_posInv, ?_, ?_⟩
  · have general : ∀ (l : List PMOp) (st : PMState), PosInv st →
        (∀ op ∈ l, OpValidated op) → PosInv (l.foldl applyOp st) := by
      intro l
      induction l with
      | nil => exact fun st h _ => h
      | cons op rest ih =>
        intro st h hops
        rw [List.foldl_cons]
        refine ih _ ?_ (fun o ho => hops o (List.mem_cons_of_mem _ ho))
        cases op with
        | update pd now =>
          exact updatePrice_posInv st pd now h
            (hops _ (List.mem_cons_self _ _))
        | reap now maxAge => exact removeStaleData_posInv st now maxAge h
    intro ops hops
    have base : PosInv emptyPM := by
      intro p hp
      simp [emptyPM] at hp
    exact general ops emptyPM base hops
  · intro d nowMs pd h
    obtain ⟨iname, lastp, bidp, askp, ts⟩ := d
    cases iname with
    | none => simp [deribitHandlePriceUpdate] at h
    | some instr =>
      by_cases hnil : instr = []
      · simp [deribitHandlePriceUpdate, hnil] at h
      · cases lastp with
        | none => simp [deribitHandlePriceUpdate, hnil] at h
        | some lp =>
          cases bidp with
          | none => simp [deribitHandlePriceUpdate, hnil] at h
          | some bp =>
            cases askp with
            | none => simp [deribitHandlePriceUpdate, hnil] at h
            | some ap =>
              rw [deribitHandlePriceUpdate] at h
              dsimp only at h
              rw [if_neg hnil] at h
              split_ifs at h with h1 h2
              have hpd : formatPriceData "deribit".toList
                  deribitNormalize (deribitConvertFrom instr) lp
                  (some bp) (some ap) ts nowMs = pd := by
                injection h
              push_neg at h2
              rw [← hpd]
              refine ⟨h2.1, fun b hb => ?_, fun a ha => ?_⟩
              · have : bp = b := by injection hb
                rw [← this]
                exact h2.2.1
              · have : ap = a := by injection ha
                rw [← this]
                exact h2.2.2

/-- Witness for the amended C6: a validated update from the empty book
keeps the invariant, and a decoded Deribit record is validated. -/
theorem positivity_preserved_amended_witness :
    PosInv (updatePrice emptyPM ⟨"binance".toList, "BTCUSDT".toList, 60000,
      some 59999, some 60001, 1000⟩ 0).state ∧
    PosInput ⟨"deribit".toList, "BTC-PERPETUAL".toList, 60000, some 59999,
      some 60001, 1000⟩ := by
  constructor
  · refine positivity_preserved_amended.1 emptyPM
      ⟨"binance".toList, "BTCUSDT".toList, 60000, some 59999, some 60001,
        1000⟩ 0 (fun p hp => absurd hp (by simp [emptyPM])) ?_
    refine ⟨by norm_num, fun b hb => ?_, fun a ha => ?_⟩
    · have : (59999 : ℚ) = b := by injection hb
      rw [← this]
      norm_num
    · have : (60001 : ℚ) = a := by injection ha
      rw [← this]
      norm_num
  · exact positivity_preserved_amended.2.2.2
      ⟨some "BTC-PERPETUAL".toList, some 60000, some 59999, some 60001,
        1000⟩ 5
      ⟨"deribit".toList, "BTC-PERPETUAL".toList, 60000, some 59999,
        some 60001, 1000⟩ (by decide)

/-- Claim C2 counterexample: store a quote under the dash-carrying symbol
BTC-PERPETUAL (as the Deribit path produces) at t = 0 and reap at t = 400
with cutoff 300: the timestamp entry is deleted but the quote entry
survives, because `remove_stale_data` recovers the symbol by splitting the
key at its first dash and looks up the wrong symbol BTC. -/
theorem book_timestamp_iff_dash_symbol_cex :
    (alookup ((alookup (removeStaleData (updatePrice emptyPM
        ⟨"deribit".toList, "BTC-PERPETUAL".toList, 60000, some 59999,
          some 60001, 1000⟩ 0).state 400 300).1.prices
      "BTC-PERPETUAL".toList).getD []) "deribit".toList).isSome = true ∧
    alookup (removeStaleData (updatePrice emptyPM
        ⟨"deribit".toList, "BTC-PERPETUAL".toList, 60000, some 59999,
          some 60001, 1000⟩ 0).state 400 300).1.lastUpdated
      (skey "BTC-PERPETUAL".toList "deribit".toList) = none := by
  exact ⟨by decide, by decide⟩

theorem skey_right_inj {s e1 e2 : Str} (h : skey s e1 = skey s e2) :
    e1 = e2 := by
  have := List.append_cancel_left h
  exact List.cons.inj this |>.2

theorem aerase_nil_lookup {α : Type} {l : List (Str × α)} {k : Str}
    (h : aerase l k = []) {k' : Str} (hne : k' ≠ k) :
    alookup l k' = none := by
  have := alookup_aerase l k k'
  rw [h, if_neg hne] at this
  rw [← this]
  rfl


theorem reapStep_wf (acc : ReapAcc) (s0 e0 : Str) (hnd0 : NoDash s0)
    (h : ReapWF acc) : ReapWF (reapStep acc (skey s0 e0)) := by
  obtain ⟨hP, hL, hI⟩ := h
  have hsp : splitDash (skey s0 e0) = (s0, e0) := splitDash_skey _ _ hnd0
  rw [reapStep, hsp]
  dsimp only
  cases halk : alookup acc.prices s0 with
  | none =>
    refine ⟨hP, fun kv hkv => hL kv ((mem_aerase _ _ _).mp hkv).1, ?_⟩
    intro s e hnd
    rw [alookup_aerase]
    by_cases hk : skey s e = skey s0 e0
    · obtain ⟨hs, he⟩ := skey_inj hnd hnd0 hk
      subst hs he
      rw [if_pos hk]
      refine iff_of_false ?_ (by simp)
      rintro ⟨inner1, hin1, _⟩
      rw [halk] at hin1
      cases hin1
    · rw [if_neg hk]
      exact hI s e hnd
  | some inner =>
    dsimp only
    by_cases hex : (alookup inner e0).isSome = true
    · rw [if_pos hex]
      by_cases hnil : aerase inner e0 = []
      · rw [if_pos hnil]
        refine ⟨fun p hp => hP p ((mem_aerase _ _ _).mp hp).1,
          fun kv hkv => hL kv ((mem_aerase _ _ _).mp hkv).1, ?_⟩
        intro s e hnd
        simp only [alookup_aerase]
        by_cases hs : s = s0
        · subst hs
          rw [if_pos rfl]
          refine iff_of_false ?_ ?_
          · rintro ⟨inner1, hin1, _⟩
            cases hin1
          · by_cases hk : skey s e = skey s e0
            · rw [if_pos hk]
              simp
            · rw [if_neg hk]
              have he : e ≠ e0 := fun hh => hk (by rw [hh])
              have hold : ¬∃ inner1, alookup acc.prices s = some inner1 ∧
                  (alookup inner1 e).isSome = true := by
                rintro ⟨inner1, hin1, hsome1⟩
                rw [halk] at hin1
                have hinn : inner = inner1 := by injection hin1
                rw [← hinn, aerase_nil_lookup hnil he] at hsome1
                cases hsome1
              intro hcon
              exact hold ((hI s e hnd).mpr hcon)
        · rw [if_neg hs]
          have hk : skey s e ≠ skey s0 e0 :=
            fun hh => hs (skey_inj hnd hnd0 hh).1
          rw [if_neg hk]
          exact hI s e hnd
      · rw [if_neg hnil]
        refine ⟨?_, fun kv hkv => hL kv ((mem_aerase _ _ _).mp hkv).1, ?_⟩
        · intro p hp
          rcases mem_aset _ _ _ _ hp with hpe | hpm
          · rw [hpe]
            exact hnd0
          · exact hP p hpm
        · intro s e hnd
          rw [alookup_aerase]
          by_cases hs : s = s0
          · subst hs
            rw [alookup_aset_self]
            by_cases he : e = e0
            · subst he
              rw [if_pos rfl]
              refine iff_of_false ?_ (by simp)
              rintro ⟨inner1, hin1, hsome1⟩
              have hinn : aerase inner e = inner1 := by injection hin1
              rw [← hinn, alookup_aerase, if_pos rfl] at hsome1
              cases hsome1
            · have hk : skey s e ≠ skey s e0 :=
                fun hh => he (skey_right_inj hh)
              rw [if_neg hk]
              have hnew : (∃ inner1, some (aerase inner e0) = some inner1 ∧
                  (alookup inner1 e).isSome = true) ↔
                  (alookup inner e).isSome = true := by
                constructor
                · rintro ⟨inner1, hin1, hsome1⟩
                  have hinn : aerase inner e0 = inner1 := by injection hin1
                  rw [← hinn, alookup_aerase, if_neg he] at hsome1
                  exact hsome1
                · intro hsome
                  refine ⟨aerase inner e0, rfl, ?_⟩
                  rw [alookup_aerase, if_neg he]
                  exact hsome
              rw [hnew, ← hI s e hnd, halk]
              constructor
              · intro hsome
                exact ⟨inner, rfl, hsome⟩
              · rintro ⟨inner1, hin1, hsome1⟩
                have hinn : inner = inner1 := by injection hin1
                rw [hinn]
                exact hsome1
          · have hk : skey s e ≠ skey s0 e0 :=
              fun hh => hs (skey_inj hnd hnd0 hh).1
            rw [if_neg hk, alookup_aset_ne _ _ _ _ hs]
            exact hI s e hnd
    · rw [if_neg hex]
      refine ⟨hP, fun kv hkv => hL kv ((mem_aerase _ _ _).mp hkv).1, ?_⟩
      intro s e hnd
      rw [alookup_aerase]
      by_cases hk : skey s e = skey s0 e0
      · obtain ⟨hs, he⟩ := skey_inj hnd hnd0 hk
        subst hs he
        rw [if_pos hk]
        refine iff_of_false ?_ (by simp)
        rintro ⟨inner1, hin1, hsome1⟩
        rw [halk] at hin1
        have hinn : inner = inner1 := by injection hin1
        rw [← hinn] at hsome1
        exact hex hsome1
      · rw [if_neg hk]
        exact hI s e hnd

theorem foldl_reapStep_wf (keys : List Str)
    (hk : ∀ k ∈ keys, ∃ s e, k = skey s e ∧ NoDash s)
    (acc : ReapAcc) (h : ReapWF acc) : ReapWF (keys.foldl reapStep acc) := by
  induction keys generalizing acc with
  | nil => exact h
  | cons k ks ih =>
    obtain ⟨s, e, rfl, hnd⟩ := hk k (List.mem_cons_self _ _)
    exact ih (fun k' hk' => hk k' (List.mem_cons_of_mem _ hk')) _
      (reapStep_wf acc s e hnd h)

theorem removeStaleData_lastUpdated_acc (st : PMState) (now maxAge : ℚ) :
    ((removeStaleData st now maxAge).1).lastUpdated =
      ((((st.lastUpdated.filter fun kv =>
          decide (now - kv.2 > maxAge))).map (·.1)).foldl reapStep
        ⟨st.prices, st.lastUpdated, 0, []⟩).lastUpdated := by
  simp only [removeStaleData]

theorem removeStaleData_bookWF (st : PMState) (now maxAge : ℚ)
    (h : BookWF st) : BookWF (removeStaleData st now maxAge).1 := by
  obtain ⟨hP, hL, hI⟩ := h
  have hfold : ReapWF ((((st.lastUpdated.filter fun kv =>
      decide (now - kv.2 > maxAge))).map (·.1)).foldl reapStep
      ⟨st.prices, st.lastUpdated, 0, []⟩) := by
    refine foldl_reapStep_wf _ ?_ _ ⟨hP, hL, hI⟩
    intro k hkk
    rw [List.mem_map] at hkk
    obtain ⟨kv, hkv, rfl⟩ := hkk
    exact hL kv (List.mem_filter.mp hkv).1
  refine ⟨?_, ?_, ?_⟩
  · rw [removeStaleData_prices]
    exact hfold.1
  · rw [removeStaleData_lastUpdated_acc]
    exact hfold.2.1
  · intro s e hnds
    rw [BookInv] at *
    rw [removeStaleData_prices, removeStaleData_lastUpdated_acc]
    exact hfold.2.2 s e hnds

theorem updatePrice_bookWF (st : PMState) (pd : PriceData) (now : ℚ)
    (h : BookWF st) (hnd : NoDash pd.symbol) :
    BookWF (updatePrice st pd now).state := by
  obtain ⟨hP, hL, hI⟩ := h
  have hpr := updatePrice_state_prices st pd now
  have hlu := updatePrice_state_lastUpdated st pd now
  refine ⟨?_, ?_, ?_⟩
  · rw [hpr]
    intro p hp
    rcases mem_aset _ _ _ _ hp with hpe | hpm
    · rw [hpe]
      exact hnd
    · exact hP p hpm
  · rw [hlu]
    intro kv hkv
    rcases mem_aset _ _ _ _ hkv with hke | hkm
    · exact ⟨pd.symbol, pd.exchange, by rw [hke], hnd⟩
    · exact hL kv hkm
  · intro s e hnds
    rw [hpr, hlu]
    by_cases hs : s = pd.symbol
    · subst hs
      rw [alookup_aset_self]
      by_cases he : e = pd.exchange
      · subst he
        rw [alookup_aset_self]
        refine iff_of_true ⟨_, rfl, ?_⟩ rfl
        rw [alookup_aset_self]
        rfl
      · have hk : skey pd.symbol e ≠ skey pd.symbol pd.exchange :=
          fun hh => he (skey_right_inj hh)
        rw [alookup_aset_ne _ _ _ _ hk]
        have hnew : (∃ inner1,
            some (aset ((alookup st.prices pd.symbol).getD []) pd.exchange
              ⟨pd.price, pd.bid, pd.ask, pd.timestamp⟩) = some inner1 ∧
            (alookup inner1 e).isSome = true) ↔
            (alookup ((alookup st.prices pd.symbol).getD []) e).isSome =
              true := by
          constructor
          · rintro ⟨inner1, hin1, hsome1⟩
            have hinn : aset ((alookup st.prices pd.symbol).getD [])
                pd.exchange ⟨pd.price, pd.bid, pd.ask, pd.timestamp⟩ =
                inner1 := by
              injection hin1
            rw [← hinn, alookup_aset_ne _ _ _ _ he] at hsome1
            exact hsome1
          · intro hsome
            refine ⟨_, rfl, ?_⟩
            rw [alookup_aset_ne _ _ _ _ he]
            exact hsome
        rw [hnew]
        cases halk : alookup st.prices pd.symbol with
        | none =>
          simp only [halk, Option.getD_none]
          refine iff_of_false (by simp [alookup]) ?_
          intro hcon
          obtain ⟨inner1, hin1, _⟩ := (hI pd.symbol e hnds).mpr hcon
          rw [halk] at hin1
          cases hin1
        | some inner =>
          simp only [halk, Option.getD_some]
          rw [← hI pd.symbol e hnds]
          constructor
          · intro hsome
            exact ⟨inner, halk, hsome⟩
          · rintro ⟨inner1, hin1, hsome1⟩
            rw [halk] at hin1
            have hinn : inner = inner1 := by injection hin1
            rw [hinn]
            exact hsome1
    · rw [alookup_aset_ne _ _ _ _ hs]
      have hk : skey s e ≠ skey pd.symbol pd.exchange :=
        fun hh => hs (skey_inj hnds hnd hh).1
      rw [alookup_aset_ne _ _ _ _ hk]
      exact hI s e hnds

/-- Claim C2 as amended: the existence iff between `prices[s][e]` and the
`last_updated` entry for the key built from `s` and `e` is an invariant of
every operation sequence in which updated display symbols contain no dash;
`update_price` and `remove_stale_data` preserve the well-formed-book
invariant for dash-free symbols.  When a stored symbol itself contains a
dash (as the Deribit path produces), `remove_stale_data` mis-splits the
key at its first dash and deletes the timestamp entry while the quote
entry survives, breaking the iff — see the counterexample. -/
theorem book_timestamp_iff_amended :
    (∀ st pd now, BookWF st → NoDash pd.symbol →
      BookWF (updatePrice st pd now).state) ∧
    (∀ st now maxAge, BookWF st →
      BookWF (removeStaleData st now maxAge).1) ∧
    (∀ ops, (∀ op ∈ ops, OpNoDashSymbol op) → BookInv (runOps ops)) := by
  refine ⟨updatePrice_bookWF, removeStaleData_bookWF, ?_⟩
  have base : BookWF emptyPM := by
    refine ⟨?_, ?_, ?_⟩
    · intro p hp
      simp [emptyPM] at hp
    · intro kv hkv
      simp [emptyPM] at hkv
    · intro s e hnd
      constructor
      · rintro ⟨inner, hin, _⟩
        simp [emptyPM, alookup] at hin
      · intro hcon
        simp [emptyPM, alookup] at hcon
  have general : ∀ (l : List PMOp) (st : PMState), BookWF st →
      (∀ op ∈ l, OpNoDashSymbol op) → BookWF (l.foldl applyOp st) := by
    intro l
    induction l with
    | nil => exact fun st h _ => h
    | cons op rest ih =>
      intro st h hops
      rw [List.foldl_cons]
      refine ih _ ?_ (fun o ho => hops o (List.mem_cons_of_mem _ ho))
      cases op with
      | update pd now =>
        exact updatePrice_bookWF st pd now h (hops _ (List.mem_cons_self _ _))
      | reap now maxAge => exact removeStaleData_bookWF st now maxAge h
  intro ops hops
  exact (general ops emptyPM base hops).2.2

/-- Witness for the amended C2: a dash-free update followed by a reap
satisfies the existence iff. -/
theorem book_timestamp_iff_amended_witness :
    BookInv (runOps [PMOp.update ⟨"binance".toList, "BTCUSDT".toList,
      60000, some 59999, some 60001, 1000⟩ 0, PMOp.reap 400 300]) :=
  book_timestamp_iff_amended.2.2
    [PMOp.update ⟨"binance".toList, "BTCUSDT".toList, 60000, some 59999,
      some 60001, 1000⟩ 0, PMOp.reap 400 300]
    (by
      rintro op hop
      rcases List.mem_cons.mp hop with rfl | hop2
      · show NoDash ("BTCUSDT".toList)
        decide
      · rcases List.mem_cons.mp hop2 with rfl | hop3
        · exact trivial
        · cases hop3)

/-- Claim C1 counterexample: decoding a valid Deribit ticker frame for
BTC-PERPETUAL emits a price-update record whose symbol is the native
ticker BTC-PERPETUAL, not the mapped display symbol BTCUSDT — the handler
converts the instrument to BTCUSDT but `format_price_data` routes it back
through Deribit's `normalize_symbol` override — and feeding that record
directly to `update_price` creates the book entry under BTC-PERPETUAL
while no BTCUSDT entry exists. -/
theorem deribit_frame_keyed_under_native_ticker_cex :
    deribitHandlePriceUpdate ⟨some "BTC-PERPETUAL".toList, some 60000,
      some 59999, some 60001, 1000⟩ 5 =
      some ⟨"deribit".toList, "BTC-PERPETUAL".toList, 60000, some 59999,
        some 60001, 1000⟩ ∧
    "BTC-PERPETUAL".toList ≠ "BTCUSDT".toList ∧
    alookup (updatePrice emptyPM ⟨"deribit".toList,
      "BTC-PERPETUAL".toList, 60000, some 59999, some 60001,
      1000⟩ 0).state.prices "BTCUSDT".toList = none ∧
    (alookup ((alookup (updatePrice emptyPM ⟨"deribit".toList,
      "BTC-PERPETUAL".toList, 60000, some 59999, some 60001,
      1000⟩ 0).state.prices "BTC-PERPETUAL".toList).getD [])
      "deribit".toList).isSome = true :=
  ⟨by decide, by decide, by decide, by decide⟩

/-- Claim C1 as amended: for every entry `(native, display)` of Deribit's
reverse table, the conversion round-trips, a valid ticker frame decodes to
a record carrying the NATIVE ticker (Deribit's `normalize_symbol` maps the
display symbol back to the native ticker inside `format_price_data`);
handed directly to `update_price` the book entry lands under the native
ticker, and only the backend's `symbol_ticker` mapping handler re-keys the
record so that the book entry lands under the display symbol. -/
theorem deribit_routing_amended :
    (∀ p ∈ deribitReverseMappings, deribitConvertTo p.2 = p.1) ∧
    (∀ i d lp bp ap ts nowMs, alookup deribitReverseMappings i = some d →
      0 < lp → 0 < bp → 0 < ap →
      ∃ pd, deribitHandlePriceUpdate ⟨some i, some lp, some bp, some ap, ts⟩
          nowMs = some pd ∧
        pd.symbol = i ∧ pd.exchange = "deribit".toList ∧
        (∀ st now, (alookup ((alookup (updatePrice st pd now).state.prices
          i).getD []) "deribit".toList).isSome = true) ∧
        (∀ st now, (alookup ((alookup (handlePriceUpdateWithMapping st
          [⟨d, "deribit".toList, i⟩] "deribit".toList pd now).state.prices
          d).getD []) "deribit".toList).isSome = true)) := by
  have hrt : ∀ p ∈ deribitReverseMappings, deribitConvertTo p.2 = p.1 := by
    decide
  refine ⟨hrt, ?_⟩
  intro i d lp bp ap ts nowMs hlk hlp hbp hap
  have hmem : (i, d) ∈ deribitReverseMappings := mem_of_alookup hlk
  have hne : ¬i = [] := by
    have hall : ∀ p ∈ deribitReverseMappings, p.1 ≠ [] := by decide
    exact hall (i, d) hmem
  have hcf : deribitConvertFrom i = d := by
    rw [deribitConvertFrom, hlk]
  have hcs : deribitNormalize (deribitConvertFrom i) = i := by
    rw [hcf]
    exact hrt (i, d) hmem
  have h0 : ¬(lp = 0 ∨ bp = 0 ∨ ap = 0) := by
    push_neg
    exact ⟨ne_of_gt hlp, ne_of_gt hbp, ne_of_gt hap⟩
  have h1 : ¬(lp ≤ 0 ∨ bp ≤ 0 ∨ ap ≤ 0) := by
    push_neg
    exact ⟨hlp, hbp, hap⟩
  refine ⟨formatPriceData "deribit".toList deribitNormalize
    (deribitConvertFrom i) lp (some bp) (some ap) ts nowMs,
    ?_, hcs, rfl, ?_, ?_⟩
  · rw [deribitHandlePriceUpdate]
    dsimp only
    rw [if_neg hne, if_neg h0, if_neg h1]
  · intro st now
    rw [updatePrice_state_prices]
    dsimp only [formatPriceData]
    rw [hcs, alookup_aset_self, Option.getD_some, alookup_aset_self]
    rfl
  · intro st now
    rw [handlePriceUpdateWithMapping]
    dsimp only [formatPriceData]
    rw [hcs, findDisplay, if_pos ⟨rfl, rfl⟩]
    dsimp only
    rw [updatePrice_state_prices]
    dsimp only
    rw [alookup_aset_self, Option.getD_some, alookup_aset_self]
    rfl

/-- Witness for the amended C1: the BTC-PERPETUAL mapping at a concrete
valid frame. -/
theorem deribit_routing_amended_witness :
    alookup deribitReverseMappings "BTC-PERPETUAL".toList =
      some "BTCUSDT".toList ∧
    ∃ pd, deribitHandlePriceUpdate ⟨some "BTC-PERPETUAL".toList,
        some 60000, some 59999, some 60001, 1000⟩ 5 = some pd ∧
      pd.symbol = "BTC-PERPETUAL".toList ∧
      pd.exchange = "deribit".toList ∧
      (∀ st now, (alookup ((alookup (updatePrice st pd now).state.prices
        "BTC-PERPETUAL".toList).getD []) "deribit".toList).isSome = true) ∧
      (∀ st now, (alookup ((alookup (handlePriceUpdateWithMapping st
        [⟨"BTCUSDT".toList, "deribit".toList, "BTC-PERPETUAL".toList⟩]
        "deribit".toList pd now).state.prices
        "BTCUSDT".toList).getD []) "deribit".toList).isSome = true) :=
  ⟨by decide, deribit_routing_amended.2 "BTC-PERPETUAL".toList
    "BTCUSDT".toList 60000 59999 60001 1000 5 (by decide)
    (by norm_num) (by norm_num) (by norm_num)⟩

/-- Claim C3 counterexample: two exchanges tie on the best bid (100); the
exchange updated first ("a", local receive time 10) is selected even
though "b" (local receive time 20) is more recent, because the scan keeps
the current best on ties (strict comparison in iteration order). -/
theorem best_prices_tie_order_cex :
    getBestPrices (updatePrice (updatePrice emptyPM
        ⟨"a".toList, "BTCUSDT".toList, 100, some 100, some 101, 1⟩ 10).state
        ⟨"b".toList, "BTCUSDT".toList, 100, some 100, some 102, 2⟩ 20).state
      "BTCUSDT".toList =
      some ⟨"BTCUSDT".toList, some ⟨100, "a".toList, 1⟩,
        some ⟨101, "a".toList, 1⟩, some 1, some 1⟩ ∧
    alookup (updatePrice (updatePrice emptyPM
        ⟨"a".toList, "BTCUSDT".toList, 100, some 100, some 101, 1⟩ 10).state
        ⟨"b".toList, "BTCUSDT".toList, 100, some 100, some 102, 2⟩
        20).state.lastUpdated (skey "BTCUSDT".toList "a".toList) =
      some 10 ∧
    alookup (updatePrice (updatePrice emptyPM
        ⟨"a".toList, "BTCUSDT".toList, 100, some 100, some 101, 1⟩ 10).state
        ⟨"b".toList, "BTCUSDT".toList, 100, some 100, some 102, 2⟩
        20).state.lastUpdated (skey "BTCUSDT".toList "b".toList) =
      some 20 ∧
    alookup ((alookup (updatePrice (updatePrice emptyPM
        ⟨"a".toList, "BTCUSDT".toList, 100, some 100, some 101, 1⟩ 10).state
        ⟨"b".toList, "BTCUSDT".toList, 100, some 100, some 102, 2⟩
        20).state.prices "BTCUSDT".toList).getD []) "b".toList =
      some ⟨100, some 100, some 102, 2⟩ ∧
    (20 : ℚ) > 10 :=
  ⟨by decide, by decide, by decide, by decide, by decide⟩

theorem chooseStep_foldl_some (better : ℚ → ℚ → Bool)
    (htrans : ∀ a b c, better a b = true → better b c = true →
      better a c = true)
    (hcompat : ∀ a b c, better a b = true → better c b = false →
      better a c = true) :
    ∀ (B : List BestEntry) (a y : BestEntry),
      B.foldl (chooseStep better) (some a) = some y →
      ∃ l₁ l₂, a :: B = l₁ ++ y :: l₂ ∧
        (∀ z ∈ l₁, better y.price z.price = true) ∧
        (∀ z ∈ l₂, better z.price y.price = false) := by
  intro B
  induction B with
  | nil =>
    intro a y h
    have hy : a = y := by injection h
    subst hy
    exact ⟨[], [], rfl, by simp, by simp⟩
  | cons x xs ih =>
    intro a y h
    rw [List.foldl_cons] at h
    by_cases hb : better x.price a.price = true
    · rw [chooseStep, if_pos hb] at h
      obtain ⟨l₁, l₂, hdec, h1, h2⟩ := ih x y h
      refine ⟨a :: l₁, l₂, by rw [List.cons_append, hdec], ?_, h2⟩
      intro z hz
      rcases List.mem_cons.mp hz with rfl | hz'
      · rcases l₁ with _ | ⟨w, l₁'⟩
        · have hxy : x = y := by
            have h' := hdec
            rw [List.nil_append] at h'
            injection h'
          rw [← hxy]
          exact hb
        · have hxw : x = w := by
            have h' := hdec
            rw [List.cons_append] at h'
            injection h'
          have hyw : better y.price w.price = true :=
            h1 w (List.mem_cons_self _ _)
          exact htrans _ _ _ hyw (by rw [← hxw]; exact hb)
      · exact h1 z hz'
    · have hb' : better x.price a.price = false := by
        rwa [Bool.not_eq_true] at hb
      rw [chooseStep, if_neg hb] at h
      obtain ⟨l₁, l₂, hdec, h1, h2⟩ := ih a y h
      rcases l₁ with _ | ⟨w, l₁'⟩
      · have hya : a = y ∧ xs = l₂ := by
          rw [List.nil_append] at hdec
          exact ⟨by injection hdec, by injection hdec⟩
        refine ⟨[], x :: l₂, ?_, by simp, ?_⟩
        · rw [List.nil_append, ← hya.1, hya.2]
        · intro z hz
          rcases List.mem_cons.mp hz with rfl | hz'
          · rw [← hya.1]
            exact hb'
          · exact h2 z hz'
      · have hwa : a = w ∧ xs = l₁' ++ y :: l₂ := by
          rw [List.cons_append] at hdec
          exact ⟨by injection hdec, by injection hdec⟩
        have hya : better y.price a.price = true := by
          rw [hwa.1]
          exact h1 w (List.mem_cons_self _ _)
        refine ⟨a :: x :: l₁', l₂, ?_, ?_, h2⟩
        · rw [hwa.2]
          rfl
        · intro z hz
          rcases List.mem_cons.mp hz with rfl | hz'
          · exact hya
          · rcases List.mem_cons.mp hz' with rfl | hz''
            · exact hcompat _ _ _ hya hb'
            · exact h1 z (List.mem_cons_of_mem _ hz'')

theorem chooseStep_foldl_top (better : ℚ → ℚ → Bool)
    (htrans : ∀ a b c, better a b = true → better b c = true →
      better a c = true)
    (hcompat : ∀ a b c, better a b = true → better c b = false →
      better a c = true)
    (B : List BestEntry) (y : BestEntry)
    (h : B.foldl (chooseStep better) none = some y) :
    ∃ l₁ l₂, B = l₁ ++ y :: l₂ ∧
      (∀ z ∈ l₁, better y.price z.price = true) ∧
      (∀ z ∈ l₂, better z.price y.price = false) := by
  cases B with
  | nil => cases h
  | cons x xs =>
    rw [List.foldl_cons] at h
    have hstep : chooseStep better none x = some x := rfl
    rw [hstep] at h
    exact chooseStep_foldl_some better htrans hcompat xs x y h

theorem foldl_bestFoldStep_eq (better : ℚ → ℚ → Bool)
    (proj : Quote → Option ℚ) (inner : List (Str × Quote))
    (acc : Option BestEntry) :
    inner.foldl (bestFoldStep better proj) acc =
      (entriesOf proj inner).foldl (chooseStep better) acc := by
  induction inner generalizing acc with
  | nil => rfl
  | cons x xs ih =>
    rw [List.foldl_cons]
    cases hp : proj x.2 with
    | none =>
      have h1 : bestFoldStep better proj acc x = acc := by
        rw [bestFoldStep, hp]
      have h2 : entriesOf proj (x :: xs) = entriesOf proj xs := by
        rw [entriesOf, List.filterMap_cons, hp]
        rfl
      rw [h1, h2]
      exact ih acc
    | some v =>
      have h1 : bestFoldStep better proj acc x =
          chooseStep better acc ⟨v, x.1, x.2.timestamp⟩ := by
        rw [bestFoldStep, hp]
        cases acc <;> rfl
      have h2 : entriesOf proj (x :: xs) =
          ⟨v, x.1, x.2.timestamp⟩ :: entriesOf proj xs := by
        rw [entriesOf, List.filterMap_cons, hp]
        rfl
      rw [h1, h2, List.foldl_cons]
      exact ih _

/-- Claim C3 as amended: for a symbol with stored quotes,
`get_best_prices` selects as best bid an entry attaining the maximum of
the present bids and as best ask one attaining the minimum of the present
asks; when several exchanges tie on the extreme value, the entry iterated
first (earliest insertion order) is selected, not the one with the most
recent local receive timestamp — each selected entry splits the candidate
list so that everything before it is strictly worse and everything after
it is no better. -/
theorem best_prices_amended (st : PMState) (s : Str)
    (inner : List (Str × Quote)) (hin : getPricesBySymbol st s = some inner)
    (hne : inner ≠ []) :
    ∃ r, getBestPrices st s = some r ∧
      ((entriesOf Quote.bid inner = [] → r.best_bid = none) ∧
       (∀ y, r.best_bid = some y →
         ∃ l₁ l₂, entriesOf Quote.bid inner = l₁ ++ y :: l₂ ∧
           (∀ z ∈ l₁, z.price < y.price) ∧
           (∀ z ∈ l₂, z.price ≤ y.price))) ∧
      ((entriesOf Quote.ask inner = [] → r.best_ask = none) ∧
       (∀ y, r.best_ask = some y →
         ∃ l₁ l₂, entriesOf Quote.ask inner = l₁ ++ y :: l₂ ∧
           (∀ z ∈ l₁, y.price < z.price) ∧
           (∀ z ∈ l₂, y.price ≤ z.price))) := by
  have htransG : ∀ a b c, gtB a b = true → gtB b c = true →
      gtB a c = true := by
    intro a b c h1 h2
    have h1' := of_decide_eq_true h1
    have h2' := of_decide_eq_true h2
    exact decide_eq_true (lt_trans h2' h1')
  have hcompatG : ∀ a b c, gtB a b = true → gtB c b = false →
      gtB a c = true := by
    intro a b c h1 h2
    have h1' := of_decide_eq_true h1
    have h2' := of_decide_eq_false h2
    exact decide_eq_true (lt_of_le_of_lt (not_lt.mp h2') h1')
  have htransL : ∀ a b c, ltB a b = true → ltB b c = true →
      ltB a c = true := by
    intro a b c h1 h2
    have h1' := of_decide_eq_true h1
    have h2' := of_decide_eq_true h2
    exact decide_eq_true (lt_trans h1' h2')
  have hcompatL : ∀ a b c, ltB a b = true → ltB c b = false →
      ltB a c = true := by
    intro a b c h1 h2
    have h1' := of_decide_eq_true h1
    have h2' := of_decide_eq_false h2
    exact decide_eq_true (lt_of_lt_of_le h1' (not_lt.mp h2'))
  simp only [getBestPrices, hin]
  rw [if_neg hne, foldl_bestFoldStep_eq gtB Quote.bid inner none,
    foldl_bestFoldStep_eq ltB Quote.ask inner none]
  cases hbb : (entriesOf Quote.bid inner).foldl (chooseStep gtB) none with
  | none =>
    cases hba : (entriesOf Quote.ask inner).foldl (chooseStep ltB) none with
    | none =>
      exact ⟨_, rfl, ⟨fun _ => rfl, fun y hy => Option.noConfusion hy⟩,
        fun _ => rfl, fun y hy => Option.noConfusion hy⟩
    | some ya =>
      refine ⟨_, rfl, ⟨fun _ => rfl, fun y hy => Option.noConfusion hy⟩,
        ?_, ?_⟩
      · intro hemp
        rw [hemp, List.foldl_nil] at hba
        exact Option.noConfusion hba
      · intro y hy
        have hyy : ya = y := by injection hy
        subst hyy
        obtain ⟨l₁, l₂, hdec, h1, h2⟩ :=
          chooseStep_foldl_top ltB htransL hcompatL _ _ hba
        exact ⟨l₁, l₂, hdec, fun z hz => of_decide_eq_true (h1 z hz),
          fun z hz => not_lt.mp (of_decide_eq_false (h2 z hz))⟩
  | some yb =>
    cases hba : (entriesOf Quote.ask inner).foldl (chooseStep ltB) none with
    | none =>
      refine ⟨_, rfl, ⟨?_, ?_⟩, fun _ => rfl,
        fun y hy => Option.noConfusion hy⟩
      · intro hemp
        rw [hemp, List.foldl_nil] at hbb
        exact Option.noConfusion hbb
      · intro y hy
        have hyy : yb = y := by injection hy
        subst hyy
        obtain ⟨l₁, l₂, hdec, h1, h2⟩ :=
          chooseStep_foldl_top gtB htransG hcompatG _ _ hbb
        exact ⟨l₁, l₂, hdec, fun z hz => of_decide_eq_true (h1 z hz),
          fun z hz => not_lt.mp (of_decide_eq_false (h2 z hz))⟩
    | some ya =>
      refine ⟨_, rfl, ⟨?_, ?_⟩, ?_, ?_⟩
      · intro hemp
        rw [hemp, List.foldl_nil] at hbb
        exact Option.noConfusion hbb
      · intro y hy
        have hyy : yb = y := by injection hy
        subst hyy
        obtain ⟨l₁, l₂, hdec, h1, h2⟩ :=
          chooseStep_foldl_top gtB htransG hcompatG _ _ hbb
        exact ⟨l₁, l₂, hdec, fun z hz => of_decide_eq_true (h1 z hz),
          fun z hz => not_lt.mp (of_decide_eq_false (h2 z hz))⟩
      · intro hemp
        rw [hemp, List.foldl_nil] at hba
        exact Option.noConfusion hba
      · intro y hy
        have hyy : ya = y := by injection hy
        subst hyy
        obtain ⟨l₁, l₂, hdec, h1, h2⟩ :=
          chooseStep_foldl_top ltB htransL hcompatL _ _ hba
        exact ⟨l₁, l₂, hdec, fun z hz => of_decide_eq_true (h1 z hz),
          fun z hz => not_lt.mp (of_decide_eq_false (h2 z hz))⟩

/-- Witness for the amended C3: the selection spec at the concrete
two-exchange fixture book. -/
theorem best_prices_amended_witness :
    ∃ r, getBestPrices sampleBook "BTCUSDT".toList = some r ∧
      ((entriesOf Quote.bid
          [("binance".toList, ⟨60000, some 59999, some 60001, 1000⟩),
           ("bybit".toList, ⟨60100, none, none, 2000⟩)] = [] →
        r.best_bid = none) ∧
       (∀ y, r.best_bid = some y →
         ∃ l₁ l₂, entriesOf Quote.bid
             [("binance".toList, ⟨60000, some 59999, some 60001, 1000⟩),
              ("bybit".toList, ⟨60100, none, none, 2000⟩)] =
             l₁ ++ y :: l₂ ∧
           (∀ z ∈ l₁, z.price < y.price) ∧
           (∀ z ∈ l₂, z.price ≤ y.price))) ∧
      ((entriesOf Quote.ask
          [("binance".toList, ⟨60000, some 59999, some 60001, 1000⟩),
           ("bybit".toList, ⟨60100, none, none, 2000⟩)] = [] →
        r.best_ask = none) ∧
       (∀ y, r.best_ask = some y →
         ∃ l₁ l₂, entriesOf Quote.ask
             [("binance".toList, ⟨60000, some 59999, some 60001, 1000⟩),
              ("bybit".toList, ⟨60100, none, none, 2000⟩)] =
             l₁ ++ y :: l₂ ∧
           (∀ z ∈ l₁, y.price < z.price) ∧
           (∀ z ∈ l₂, y.price ≤ z.price))) :=
  best_prices_amended sampleBook "BTCUSDT".toList
    [("binance".toList, ⟨60000, some 59999, some 60001, 1000⟩),
     ("bybit".toList, ⟨60100, none, none, 2000⟩)] (by decide) (by decide)
